import Mathlib

/-!
Shallow embedding of the reference/test constraint system of the `bellman`
repository (`src/gadgets/test/mod.rs` together with the protocol surface of
`src/lib.rs`), and proofs about it.

Modelling conventions:
* Field elements `E::Fr` are an abstract commutative ring `F` with decidable
  equality; witnesses instantiate `F := Int`.  Field inversion is never used
  by the embedded code.
* `LinearCombination` internals live in `src/lc.rs`, which is not part of the
  shown sources; following the spec ("ordered list of (Variable, coefficient)
  pairs") it is embedded as a list of pairs, iterated in list order.
* A Rust `panic!` / failed `assert!` (a "hard fault") is modelled by an
  operation returning `none`; the recoverable `Result` channel is `Except`.
* `BTreeMap<OrderedVariable, Fr>` is embedded as an association list kept
  strictly sorted by `ordCmp`; `HashMap<String, NamedObject>` as an
  association list with insert-if-absent semantics (ordering of the hash map
  is irrelevant: only lookup and membership are used).
* The external Blake2s-256 primitive and the external fixed-width canonical
  byte representation of field elements are parameters (`blake`, `reprBytes`)
  of the hashing definitions; theorems hold for every choice of them.
* Vector indexing `inputs[i]` in `eval_lc` (which panics when out of range;
  the spec calls that unreachable by construction) is modelled with a zero
  default; all satisfiability theorems carry the in-range hypothesis under
  which the two readings agree.
-/

set_option linter.unusedSectionVars false
set_option linter.unusedVariables false

namespace Bellman

/-- Index from `src/lc.rs` (modelled from the spec: a variable is tagged
Input (public) or Aux (private) and identified by position). -/
inductive Index : Type where
  | input (i : Nat)
  | aux (i : Nat)
deriving DecidableEq, Repr

/-- Variable is a typed reference to one assignment slot; `get_unchecked`
exposes its `Index`, so the embedding identifies the two. -/
abbrev Variable := Index

/-- LinearCombination: ordered list of (Variable, coefficient) pairs
(modelled from the spec; `src/lc.rs` is not among the shown sources). -/
abbrev LinearCombination (F : Type) := List (Variable × F)

/-- NamedObject from `src/gadgets/test/mod.rs`: a registry entry is a
constraint index, a variable, or a namespace marker. -/
inductive NamedObject : Type where
  | constraint (i : Nat)
  | var (v : Variable)
  | nsMarker
deriving DecidableEq, Repr

/-- SynthesisError from `src/lib.rs` (payloads embedded as strings). -/
inductive SynthesisError : Type where
  | assignmentMissing
  | divisionByZero
  | unsatisfiable
  | polynomialDegreeTooLarge
  | unexpectedIdentity
  | ioError (msg : String)
  | malformedVerifyingKey
  | unconstrainedVariable
  | gpuError (msg : String)
  | malformedProofs (msg : String)
  | malformedSrs
  | nonPowerOfTwo
  | incompatibleLengthVector (msg : String)
  | invalidPairing
deriving DecidableEq, Repr

deriving instance DecidableEq for Except

/-- Constraint record: the triple (A, B, C) plus its path, as stored in
the `constraints` vector of `TestConstraintSystem`. -/
structure Constraint (F : Type) where
  a : LinearCombination F
  b : LinearCombination F
  c : LinearCombination F
  path : String
deriving DecidableEq

/-- TestConstraintSystem state (`src/gadgets/test/mod.rs`, lines 27-38). -/
structure TestConstraintSystem (F : Type) where
  named_objects : List (String × NamedObject)
  current_namespace : List String
  constraints : List (Constraint F)
  inputs : List (F × String)
  aux : List (F × String)
deriving DecidableEq

variable {F : Type} [CommRing F] [DecidableEq F]

/-- OrderedVariable::cmp (`src/gadgets/test/mod.rs`, lines 58-67): Input
compares below Aux, and within a kind indices compare as naturals. -/
def ordCmp : Variable → Variable → Ordering
  | .input a, .input b => compare a b
  | .aux a, .aux b => compare a b
  | .input _, .aux _ => .lt
  | .aux _, .input _ => .gt

/-- One step of the `map.entry(var).or_insert_with(zero).add_assign(coeff)`
fold of `proc_lc`, on the sorted-association-list model of the BTreeMap:
insert coefficient `c` for key `v`, merging by field addition on an
existing key. -/
def insertTerm (v : Variable) (c : F) :
    List (Variable × F) → List (Variable × F)
  | [] => [(v, c)]
  | (w, d) :: m =>
    match ordCmp v w with
    | .lt => (v, c) :: (w, d) :: m
    | .eq => (w, d + c) :: m
    | .gt => (w, d) :: insertTerm v c m

/-- Folding all terms of a combination into the (initially empty) BTreeMap,
in term order (`proc_lc`, first loop). -/
def procFold (terms : LinearCombination F) : List (Variable × F) :=
  terms.foldl (fun m t => insertTerm t.1 t.2 m) []

/-- proc_lc (`src/gadgets/test/mod.rs`, lines 69-90): fold all terms into
the map, then remove every entry whose final coefficient is zero (the code
collects the zero-coefficient keys and removes them one by one; on a map
with distinct keys that is exactly a filter). -/
def proc_lc (terms : LinearCombination F) : List (Variable × F) :=
  (procFold terms).filter (fun t => ¬ t.2 = 0)

/-- Assignment lookup of `eval_lc`: `inputs[index].0` / `aux[index].0`,
with the out-of-range panic modelled by a zero default (see header note). -/
def lookupVal (inputs aux : List (F × String)) : Variable → F
  | .input i => (inputs.getD i (0, "")).1
  | .aux i => (aux.getD i (0, "")).1

/-- eval_lc (`src/gadgets/test/mod.rs`, lines 120-138): accumulate
`acc + assignment(var) * coeff` over the raw terms in original order. -/
def eval_lc (terms : LinearCombination F) (inputs aux : List (F × String)) : F :=
  terms.foldl (fun acc t => acc + lookupVal inputs aux t.1 * t.2) 0

/-- Big-endian 8-byte encoding of a length/index
(`BigEndian::write_u64(buf, x as u64)`); each entry is one byte. -/
def be64 (n : Nat) : List Nat :=
  [n / 256 ^ 7 % 256, n / 256 ^ 6 % 256, n / 256 ^ 5 % 256, n / 256 ^ 4 % 256,
   n / 256 ^ 3 % 256, n / 256 ^ 2 % 256, n / 256 % 256, n % 256]

/-- Byte chunk fed to the hasher for one canonical term of `hash_lc`
(lines 99-117): tag byte 73 = b'I' or 65 = b'A', 8-byte big-endian index,
then the coefficient's canonical bytes `to_repr` with byte order reversed.
`reprBytes` is the external fixed-width representation; the code's 41-byte
buffer requires it to be 32 bytes wide, a hypothesis the theorems carry. -/
def termBytes (reprBytes : F → List Nat) (t : Variable × F) : List Nat :=
  match t.1 with
  | .input i => 73 :: (be64 i ++ (reprBytes t.2).reverse)
  | .aux i => 65 :: (be64 i ++ (reprBytes t.2).reverse)

/-- hash_lc (`src/gadgets/test/mod.rs`, lines 92-118) as the byte stream it
feeds to the Blake2s state: the 8-byte big-endian count of surviving
canonical terms, then each term's chunk in canonical order. -/
def hash_lc_bytes (reprBytes : F → List Nat) (terms : LinearCombination F) :
    List Nat :=
  be64 (proc_lc terms).length ++ ((proc_lc terms).map (termBytes reprBytes)).flatten

/-- Full byte stream fed to the Blake2s state by `hash()` (lines 204-219):
a 24-byte header (input count, aux count, constraint count, each 8-byte
big-endian), then for each constraint in insertion order the `hash_lc`
stream of A, then B, then C. -/
def hashInput (reprBytes : F → List Nat) (s : TestConstraintSystem F) :
    List Nat :=
  (be64 s.inputs.length ++ be64 s.aux.length ++ be64 s.constraints.length) ++
    (s.constraints.map (fun t =>
      hash_lc_bytes reprBytes t.a ++ hash_lc_bytes reprBytes t.b ++
        hash_lc_bytes reprBytes t.c)).flatten

/-- Hex digit characters used by the `format!("\x7b:02x\x7d", b)` rendering. -/
def hexDigit (n : Nat) : Char :=
  (("0123456789abcdef".toList).getD n '0')

/-- Two lowercase hex characters for one byte. -/
def byteToHex (b : Nat) : List Char :=
  [hexDigit (b / 16 % 16), hexDigit (b % 16)]

/-- Rendering of the digest: concatenation of the two-hex-character
renderings of its bytes (lines 221-226). -/
def hexString (l : List Nat) : String :=
  ⟨(l.map byteToHex).flatten⟩

/-- TestConstraintSystem::hash (lines 204-227), parameterized by the
external Blake2s-256 primitive `blake` (a function from the fed byte
stream to the 32 finalized digest bytes) and by the coefficient
representation. -/
def hash (blake : List Nat → List Nat) (reprBytes : F → List Nat)
    (s : TestConstraintSystem F) : String :=
  hexString (blake (hashInput reprBytes s))

/-- One constraint fails when eval(A) * eval(B) differs from eval(C). -/
def constraintUnsat (inputs aux : List (F × String)) (t : Constraint F) : Prop :=
  ¬ eval_lc t.a inputs aux * eval_lc t.b inputs aux = eval_lc t.c inputs aux

instance (inputs aux : List (F × String)) (t : Constraint F) :
    Decidable (constraintUnsat inputs aux t) := by
  unfold constraintUnsat; infer_instance

/-- Iteration of which_is_unsatisfied over the constraints vector. -/
def firstUnsat (inputs aux : List (F × String)) :
    List (Constraint F) → Option String
  | [] => none
  | t :: rest =>
    if constraintUnsat inputs aux t then some t.path
    else firstUnsat inputs aux rest

/-- which_is_unsatisfied (`src/gadgets/test/mod.rs`, lines 229-243). -/
def which_is_unsatisfied (s : TestConstraintSystem F) : Option String :=
  firstUnsat s.inputs s.aux s.constraints

/-- is_satisfied (lines 245-247). -/
def is_satisfied (s : TestConstraintSystem F) : Bool :=
  (which_is_unsatisfied s).isNone

/-- verify (lines 267-277): the length assertion's failure is `none`;
otherwise compare `inputs[1..]` with `expected` pairwise via zip. -/
def verify (s : TestConstraintSystem F) (expected : List F) : Option Bool :=
  if expected.length + 1 = s.inputs.length then
    some (((s.inputs.drop 1).zip expected).all (fun p => decide (p.1.1 = p.2)))
  else none

/-- set_named_obj (lines 305-311): hard fault when the path already exists,
otherwise record the entry. -/
def setNamedObj (m : List (String × NamedObject)) (path : String)
    (obj : NamedObject) : Option (List (String × NamedObject)) :=
  if (m.lookup path).isSome then none else some ((path, obj) :: m)

/-- compute_path (lines 314-332): hard fault when the local name contains
a slash; otherwise fold the namespace segments and the local name with a
separator before every segment but the first. -/
def computePath (ns : List String) (nm : String) : Option String :=
  if nm.data.any (fun a => decide (a = '/')) then none
  else
    some ((ns ++ [nm]).foldl
      (fun (acc : String × Bool) x =>
        (acc.1 ++ (if acc.2 then "/" else "") ++ x, true)) ("", false)).1

/-- ConstraintSystem::new for TestConstraintSystem (lines 337-351). -/
def new : TestConstraintSystem F :=
  { named_objects := [("ONE", .var (.input 0))]
    current_namespace := []
    constraints := []
    inputs := [(1, "ONE")]
    aux := [] }

/-- set (lines 253-265): resolve the path to a variable (hard fault when
absent or not a variable) and overwrite the slot's value, keeping its
recorded path; the out-of-range indexing panic is also a hard fault. -/
def set (s : TestConstraintSystem F) (path : String) (v : F) :
    Option (TestConstraintSystem F) :=
  match s.named_objects.lookup path with
  | some (.var (.input i)) =>
    if i < s.inputs.length then
      some { s with inputs := s.inputs.set i (v, (s.inputs.getD i (0, "")).2) }
    else none
  | some (.var (.aux i)) =>
    if i < s.aux.length then
      some { s with aux := s.aux.set i (v, (s.aux.getD i (0, "")).2) }
    else none
  | some _ => none
  | none => none

/-- alloc (lines 353-366): the new Aux index is the table length; the path
is computed first (hard fault on a slash); the value closure's outcome
`fres` is then consulted -- an error propagates with no state change; on
success the slot is pushed and the path registered (hard fault on a
duplicate path). -/
def alloc (s : TestConstraintSystem F) (nm : String)
    (fres : Except SynthesisError F) :
    Option (TestConstraintSystem F × Except SynthesisError Variable) :=
  match computePath s.current_namespace nm with
  | none => none
  | some path =>
    match fres with
    | .error e => some (s, .error e)
    | .ok x =>
      let index := s.aux.length
      let s' := { s with aux := s.aux ++ [(x, path)] }
      match setNamedObj s'.named_objects path (.var (.aux index)) with
      | none => none
      | some m => some ({ s' with named_objects := m }, .ok (.aux index))

/-- alloc_input (lines 368-381): identical to alloc but appends to the
Inputs table. -/
def alloc_input (s : TestConstraintSystem F) (nm : String)
    (fres : Except SynthesisError F) :
    Option (TestConstraintSystem F × Except SynthesisError Variable) :=
  match computePath s.current_namespace nm with
  | none => none
  | some path =>
    match fres with
    | .error e => some (s, .error e)
    | .ok x =>
      let index := s.inputs.length
      let s' := { s with inputs := s.inputs ++ [(x, path)] }
      match setNamedObj s'.named_objects path (.var (.input index)) with
      | none => none
      | some m => some ({ s' with named_objects := m }, .ok (.input index))

/-- enforce (lines 383-400): the builders receive an empty combination and
return the populated one, so the recorded combinations are exactly the
builders' results, taken here as arguments; the path is registered as a
Constraint entry before the triple is pushed. -/
def enforce (s : TestConstraintSystem F) (nm : String)
    (a b c : LinearCombination F) : Option (TestConstraintSystem F) :=
  match computePath s.current_namespace nm with
  | none => none
  | some path =>
    let index := s.constraints.length
    match setNamedObj s.named_objects path (.constraint index) with
    | none => none
    | some m =>
      some { s with
        named_objects := m
        constraints := s.constraints ++ [⟨a, b, c, path⟩] }

/-- push_namespace (lines 402-411): register a namespace marker at the
resolved path, then extend the stack. -/
def push_namespace (s : TestConstraintSystem F) (nm : String) :
    Option (TestConstraintSystem F) :=
  match computePath s.current_namespace nm with
  | none => none
  | some path =>
    match setNamedObj s.named_objects path .nsMarker with
    | none => none
    | some m =>
      some { s with named_objects := m
                    current_namespace := s.current_namespace ++ [nm] }

/-- pop_namespace (lines 413-415): hard fault on an empty stack, else drop
the last segment. -/
def pop_namespace (s : TestConstraintSystem F) :
    Option (TestConstraintSystem F) :=
  match s.current_namespace with
  | [] => none
  | _ :: _ => some { s with current_namespace := s.current_namespace.dropLast }

/-- States reachable from `new` through the mutating operations, with the
paths passed to `set` restricted by `P` (P := fun _ => True gives plain
reachability). -/
inductive ReachableP (P : String → Prop) :
    TestConstraintSystem F → Prop where
  | base : ReachableP P new
  | alloc {s nm fres s' r} : ReachableP P s →
      alloc s nm fres = some (s', r) → ReachableP P s'
  | alloc_input {s nm fres s' r} : ReachableP P s →
      alloc_input s nm fres = some (s', r) → ReachableP P s'
  | enforce {s nm a b c s'} : ReachableP P s →
      enforce s nm a b c = some s' → ReachableP P s'
  | push {s nm s'} : ReachableP P s →
      push_namespace s nm = some s' → ReachableP P s'
  | pop {s s'} : ReachableP P s →
      pop_namespace s = some s' → ReachableP P s'
  | set {s path v s'} : ReachableP P s → P path →
      set s path v = some s' → ReachableP P s'

/-- Plain reachability: every mutating operation allowed. -/
def Reachable (s : TestConstraintSystem F) : Prop :=
  ReachableP (fun _ => True) s

/-- Sum of all coefficients attached to one variable in a raw combination. -/
def sumCoeffs (terms : LinearCombination F) (v : Variable) : F :=
  ((terms.filter (fun t => decide (t.1 = v))).map Prod.snd).sum

/-- First-match coefficient lookup in an association list (the unique
coefficient when keys are distinct). -/
def coeffOf : List (Variable × F) → Variable → F
  | [], _ => 0
  | (w, d) :: m, v => if v = w then d else coeffOf m v

/-- Strict key order between entries, as decided by `ordCmp`. -/
def keyLt (a b : Variable × F) : Prop :=
  ordCmp a.1 b.1 = Ordering.lt

/-- Canonical-order relation in the spec's words: Input-kind entries come
before Aux-kind entries and, within a kind, indices ascend. -/
def specVarLt : Variable → Variable → Prop
  | .input i, .input j => i < j
  | .input _, .aux _ => True
  | .aux _, .input _ => False
  | .aux i, .aux j => i < j

theorem ordCmp_eq_iff {v w : Variable} : ordCmp v w = .eq ↔ v = w := by
  cases v <;> cases w <;>
    simp [ordCmp, Nat.compare_eq_eq]

theorem ordCmp_lt_iff_specVarLt {v w : Variable} :
    ordCmp v w = .lt ↔ specVarLt v w := by
  cases v <;> cases w <;>
    simp [ordCmp, specVarLt, Nat.compare_eq_lt]

theorem ordCmp_gt_iff {v w : Variable} :
    ordCmp v w = .gt ↔ ordCmp w v = .lt := by
  cases v <;> cases w <;>
    simp [ordCmp, Nat.compare_eq_lt, Nat.compare_eq_gt]

theorem ordCmp_lt_ne {v w : Variable} (h : ordCmp v w = .lt) : v ≠ w := by
  intro he; subst he
  rw [show ordCmp v v = .eq from ordCmp_eq_iff.mpr rfl] at h
  exact Ordering.noConfusion h

theorem ordCmp_lt_trans {u v w : Variable} (h₁ : ordCmp u v = .lt)
    (h₂ : ordCmp v w = .lt) : ordCmp u w = .lt := by
  cases u <;> cases v <;> cases w <;>
    simp_all [ordCmp, Nat.compare_eq_lt] <;> omega

theorem keyLt_trans {a b c : Variable × F} (h₁ : keyLt a b) (h₂ : keyLt b c) :
    keyLt a c :=
  ordCmp_lt_trans h₁ h₂

theorem mem_insertTerm {v : Variable} {c : F} {m : List (Variable × F)}
    {z : Variable × F} (h : z ∈ insertTerm v c m) : z.1 = v ∨ z ∈ m := by
  induction m with
  | nil =>
    simp only [insertTerm, List.mem_singleton] at h
    exact Or.inl (by rw [h])
  | cons hd tl ih =>
    obtain ⟨w, d⟩ := hd
    unfold insertTerm at h
    split at h
    · rcases List.mem_cons.mp h with h' | h'
      · exact Or.inl (by rw [h'])
      · exact Or.inr h'
    · rcases List.mem_cons.mp h with h' | h'
      · refine Or.inl ?_
        rw [h']
        exact (ordCmp_eq_iff.mp (by assumption)).symm
      · exact Or.inr (List.mem_cons_of_mem _ h')
    · rcases List.mem_cons.mp h with h' | h'
      · exact Or.inr (h' ▸ List.mem_cons_self _ _)
      · rcases ih h' with h'' | h''
        · exact Or.inl h''
        · exact Or.inr (List.mem_cons_of_mem _ h'')

theorem pairwise_insertTerm {v : Variable} {c : F} {m : List (Variable × F)}
    (hm : m.Pairwise keyLt) : (insertTerm v c m).Pairwise keyLt := by
  induction m with
  | nil => simp [insertTerm]
  | cons hd tl ih =>
    obtain ⟨w, d⟩ := hd
    rw [List.pairwise_cons] at hm
    unfold insertTerm
    split
    · rw [List.pairwise_cons]
      refine ⟨?_, List.pairwise_cons.mpr hm⟩
      intro z hz
      rcases List.mem_cons.mp hz with h' | h'
      · subst h'; assumption
      · exact keyLt_trans (a := (v, c)) (by assumption) (hm.1 z h')
    · exact List.pairwise_cons.mpr hm
    · rw [List.pairwise_cons]
      refine ⟨?_, ih hm.2⟩
      intro z hz
      rcases mem_insertTerm hz with h' | h'
      · show ordCmp w z.1 = .lt
        rw [h']
        exact ordCmp_gt_iff.mp (by assumption)
      · exact hm.1 z h'

theorem mem_keys_insertTerm {v w : Variable} {c : F}
    {m : List (Variable × F)} :
    w ∈ (insertTerm v c m).map Prod.fst ↔ w = v ∨ w ∈ m.map Prod.fst := by
  induction m with
  | nil => simp [insertTerm]
  | cons hd tl ih =>
    obtain ⟨u, d⟩ := hd
    unfold insertTerm
    split
    · simp [or_assoc]
    · have : v = u := ordCmp_eq_iff.mp (by assumption)
      subst this
      simp
    · simp only [List.map_cons, List.mem_cons, ih]
      tauto

theorem coeffOf_eq_zero_of_not_mem {m : List (Variable × F)} {v : Variable}
    (h : v ∉ m.map Prod.fst) : coeffOf m v = 0 := by
  induction m with
  | nil => rfl
  | cons hd tl ih =>
    obtain ⟨w, d⟩ := hd
    simp only [List.map_cons, List.mem_cons] at h
    push_neg at h
    simpa [coeffOf, h.1] using ih h.2

theorem coeffOf_insertTerm_self {v : Variable} {c : F}
    {m : List (Variable × F)} (hm : m.Pairwise keyLt) :
    coeffOf (insertTerm v c m) v = coeffOf m v + c := by
  induction m with
  | nil => simp [insertTerm, coeffOf]
  | cons hd tl ih =>
    obtain ⟨w, d⟩ := hd
    rw [List.pairwise_cons] at hm
    unfold insertTerm
    split
    · have hne : v ≠ w := ordCmp_lt_ne (by assumption)
      have hnm : v ∉ tl.map Prod.fst := by
        intro hmem
        rcases List.mem_map.mp hmem with ⟨z, hz, hzv⟩
        have h₁ : ordCmp w z.1 = .lt := hm.1 z hz
        have h₂ : ordCmp v z.1 = .lt :=
          ordCmp_lt_trans (by assumption) h₁
        exact ordCmp_lt_ne h₂ hzv.symm
      simp [coeffOf, hne, coeffOf_eq_zero_of_not_mem hnm]
    · have he : v = w := ordCmp_eq_iff.mp (by assumption)
      subst he
      simp [coeffOf]
    · have hne : v ≠ w := by
        intro he; subst he
        rw [show ordCmp v v = .eq from ordCmp_eq_iff.mpr rfl] at *
        exact Ordering.noConfusion (by assumption : Ordering.eq = Ordering.gt)
      simp [coeffOf, hne, ih hm.2]

theorem coeffOf_insertTerm_ne {v w : Variable} {c : F}
    {m : List (Variable × F)} (hne : w ≠ v) :
    coeffOf (insertTerm v c m) w = coeffOf m w := by
  induction m with
  | nil => simp [insertTerm, coeffOf, hne]
  | cons hd tl ih =>
    obtain ⟨u, d⟩ := hd
    unfold insertTerm
    split
    · simp [coeffOf, hne]
    · have he : v = u := ordCmp_eq_iff.mp (by assumption)
      subst he
      simp [coeffOf, hne]
    · by_cases hwu : w = u <;> simp [coeffOf, hwu, ih]

theorem sumCoeffs_cons {t : Variable × F} {ts : LinearCombination F}
    {v : Variable} :
    sumCoeffs (t :: ts) v = (if t.1 = v then t.2 else 0) + sumCoeffs ts v := by
  by_cases h : t.1 = v <;> simp [sumCoeffs, List.filter_cons, h]

theorem sumCoeffs_eq_zero_of_not_mem {terms : LinearCombination F}
    {v : Variable} (h : v ∉ terms.map Prod.fst) : sumCoeffs terms v = 0 := by
  induction terms with
  | nil => rfl
  | cons t ts ih =>
    simp only [List.map_cons, List.mem_cons] at h
    push_neg at h
    rw [sumCoeffs_cons, if_neg (Ne.symm h.1), ih h.2, zero_add]

theorem procFoldAux_pairwise (terms : LinearCombination F)
    (m : List (Variable × F)) (hm : m.Pairwise keyLt) :
    (terms.foldl (fun m t => insertTerm t.1 t.2 m) m).Pairwise keyLt := by
  induction terms generalizing m with
  | nil => exact hm
  | cons t ts ih => exact ih _ (pairwise_insertTerm hm)

theorem coeffOf_procFoldAux (terms : LinearCombination F)
    (m : List (Variable × F)) (hm : m.Pairwise keyLt) (w : Variable) :
    coeffOf (terms.foldl (fun m t => insertTerm t.1 t.2 m) m) w =
      coeffOf m w + sumCoeffs terms w := by
  induction terms generalizing m with
  | nil => simp [sumCoeffs]
  | cons t ts ih =>
    rw [List.foldl_cons, ih _ (pairwise_insertTerm hm), sumCoeffs_cons]
    by_cases h : t.1 = w
    · subst h
      rw [coeffOf_insertTerm_self hm, if_pos rfl, add_assoc]
    · rw [coeffOf_insertTerm_ne (Ne.symm h), if_neg h, zero_add]

theorem mem_keys_procFoldAux (terms : LinearCombination F)
    (m : List (Variable × F)) (w : Variable) :
    w ∈ (terms.foldl (fun m t => insertTerm t.1 t.2 m) m).map Prod.fst ↔
      w ∈ m.map Prod.fst ∨ w ∈ terms.map Prod.fst := by
  induction terms generalizing m with
  | nil => simp
  | cons t ts ih =>
    rw [List.foldl_cons, ih]
    simp only [mem_keys_insertTerm, List.map_cons, List.mem_cons]
    tauto

theorem procFold_pairwise (terms : LinearCombination F) :
    (procFold terms).Pairwise keyLt :=
  procFoldAux_pairwise terms [] (List.Pairwise.nil)

theorem coeffOf_procFold (terms : LinearCombination F) (w : Variable) :
    coeffOf (procFold terms) w = sumCoeffs terms w := by
  rw [procFold, coeffOf_procFoldAux terms [] List.Pairwise.nil w]
  simp [coeffOf]

theorem mem_keys_procFold (terms : LinearCombination F) (w : Variable) :
    w ∈ (procFold terms).map Prod.fst ↔ w ∈ terms.map Prod.fst := by
  rw [procFold, mem_keys_procFoldAux]
  simp

theorem mem_sorted_iff {m : List (Variable × F)} (hm : m.Pairwise keyLt)
    {v : Variable} {c : F} :
    (v, c) ∈ m ↔ v ∈ m.map Prod.fst ∧ coeffOf m v = c := by
  induction m with
  | nil => simp
  | cons hd tl ih =>
    obtain ⟨w, d⟩ := hd
    rw [List.pairwise_cons] at hm
    by_cases hvw : v = w
    · subst hvw
      have : (v, c) ∉ tl := by
        intro hmem
        exact ordCmp_lt_ne (hm.1 _ hmem) rfl
      simp [coeffOf, this, eq_comm]
    · simp only [List.mem_cons, List.map_cons, coeffOf, if_neg hvw,
        ih hm.2]
      constructor
      · rintro (h | h)
        · exact absurd (congrArg Prod.fst h) hvw
        · exact ⟨Or.inr h.1, h.2⟩
      · rintro ⟨h₁ | h₁, h₂⟩
        · exact absurd h₁ hvw
        · exact Or.inr ⟨h₁, h₂⟩

theorem mem_proc_lc_iff {terms : LinearCombination F} {v : Variable} {c : F} :
    (v, c) ∈ proc_lc terms ↔
      v ∈ terms.map Prod.fst ∧ c = sumCoeffs terms v ∧ ¬ c = 0 := by
  rw [proc_lc, List.mem_filter, mem_sorted_iff (procFold_pairwise terms),
    coeffOf_procFold, mem_keys_procFold]
  simp only [decide_not, Bool.not_eq_eq_eq_not, Bool.not_true, decide_eq_false_iff_not]
  constructor
  · rintro ⟨⟨h₁, h₂⟩, h₃⟩
    exact ⟨h₁, h₂.symm, h₃⟩
  · rintro ⟨h₁, h₂, h₃⟩
    exact ⟨⟨h₁, h₂.symm⟩, h₃⟩

theorem proc_lc_pairwise (terms : LinearCombination F) :
    (proc_lc terms).Pairwise keyLt :=
  (procFold_pairwise terms).filter _

theorem sorted_ext {m₁ m₂ : List (Variable × F)} (h₁ : m₁.Pairwise keyLt)
    (h₂ : m₂.Pairwise keyLt) (h : ∀ z, z ∈ m₁ ↔ z ∈ m₂) : m₁ = m₂ := by
  induction m₁ generalizing m₂ with
  | nil =>
    cases m₂ with
    | nil => rfl
    | cons y ys => exact absurd ((h y).mpr (List.mem_cons_self _ _)) (by simp)
  | cons x xs ih =>
    cases m₂ with
    | nil => exact absurd ((h x).mp (List.mem_cons_self _ _)) (by simp)
    | cons y ys =>
      rw [List.pairwise_cons] at h₁ h₂
      have hxy : x = y := by
        rcases List.mem_cons.mp ((h x).mp (List.mem_cons_self _ _)) with
          hx | hx
        · exact hx
        · rcases List.mem_cons.mp ((h y).mpr (List.mem_cons_self _ _)) with
            hy | hy
          · exact hy.symm
          · have l₁ : keyLt x y := h₁.1 y hy
            have l₂ : keyLt y x := h₂.1 x hx
            exact absurd (keyLt_trans l₁ l₂) (fun hc => ordCmp_lt_ne hc rfl)
      subst hxy
      have hxs : ∀ z, z ∈ xs ↔ z ∈ ys := by
        intro z
        constructor
        · intro hz
          rcases List.mem_cons.mp ((h z).mp (List.mem_cons_of_mem _ hz)) with
            hz' | hz'
          · exact absurd (h₁.1 z hz) (by rw [hz']; exact fun hc => ordCmp_lt_ne hc rfl)
          · exact hz'
        · intro hz
          rcases List.mem_cons.mp ((h z).mpr (List.mem_cons_of_mem _ hz)) with
            hz' | hz'
          · exact absurd (h₂.1 z hz) (by rw [hz']; exact fun hc => ordCmp_lt_ne hc rfl)
          · exact hz'
      rw [ih h₁.2 h₂.2 hxs]

theorem sumCoeffs_eq_coeffOf {m : List (Variable × F)} (hm : m.Pairwise keyLt)
    (v : Variable) : sumCoeffs m v = coeffOf m v := by
  induction m with
  | nil => rfl
  | cons hd tl ih =>
    obtain ⟨w, d⟩ := hd
    rw [List.pairwise_cons] at hm
    rw [sumCoeffs_cons]
    by_cases hvw : v = w
    · subst hvw
      have hnm : v ∉ tl.map Prod.fst := by
        intro hmem
        rcases List.mem_map.mp hmem with ⟨z, hz, hzv⟩
        exact ordCmp_lt_ne (hm.1 z hz) hzv.symm
      simp [coeffOf, sumCoeffs_eq_zero_of_not_mem hnm]
    · rw [if_neg (fun h => hvw h.symm), zero_add, ih hm.2]
      simp [coeffOf, hvw]

theorem proc_lc_perm {terms terms' : LinearCombination F}
    (h : List.Perm terms terms') : proc_lc terms = proc_lc terms' := by
  apply sorted_ext (proc_lc_pairwise _) (proc_lc_pairwise _)
  rintro ⟨v, c⟩
  rw [mem_proc_lc_iff, mem_proc_lc_iff,
    (h.map Prod.fst).mem_iff,
    show sumCoeffs terms v = sumCoeffs terms' v from
      ((h.filter _).map Prod.snd).sum_eq]

theorem mem_proc_lc_ne_zero {terms : LinearCombination F}
    {z : Variable × F} (h : z ∈ proc_lc terms) : ¬ z.2 = 0 := by
  have := (List.mem_filter.mp h).2
  simpa using this

theorem proc_lc_idem (terms : LinearCombination F) :
    proc_lc (proc_lc terms) = proc_lc terms := by
  apply sorted_ext (proc_lc_pairwise _) (proc_lc_pairwise _)
  rintro ⟨v, c⟩
  rw [mem_proc_lc_iff]
  constructor
  · rintro ⟨hv, hc, hnz⟩
    rw [sumCoeffs_eq_coeffOf (proc_lc_pairwise terms)] at hc
    exact (mem_sorted_iff (proc_lc_pairwise terms)).mpr ⟨hv, hc.symm⟩
  · intro hmem
    have h1 := (mem_sorted_iff (proc_lc_pairwise terms)).mp hmem
    refine ⟨h1.1, ?_, mem_proc_lc_ne_zero hmem⟩
    rw [sumCoeffs_eq_coeffOf (proc_lc_pairwise terms)]
    exact h1.2.symm

/-- C3: proc_lc maps each variable occurring in the combination to the sum
of all coefficients attached to it, removes every entry whose summed
coefficient is the additive identity, and orders entries with Input-kind
before Aux-kind and ascending indices within a kind. -/
theorem proc_lc_canonical (terms : LinearCombination F) :
    (∀ v c, (v, c) ∈ proc_lc terms ↔
      v ∈ terms.map Prod.fst ∧ c = sumCoeffs terms v ∧ ¬ c = 0)
    ∧ (proc_lc terms).Pairwise (fun a b => specVarLt a.1 b.1) :=
  ⟨fun _ _ => mem_proc_lc_iff,
    (proc_lc_pairwise terms).imp (fun h => ordCmp_lt_iff_specVarLt.mp h)⟩

/-- C4: proc_lc is order-insensitive (any permutation of the term list
canonicalizes to the same mapping) and idempotent (re-canonicalizing the
canonical entries returns them unchanged). -/
theorem proc_lc_order_insensitive_idem (terms terms' : LinearCombination F)
    (h : List.Perm terms terms') :
    proc_lc terms = proc_lc terms'
    ∧ proc_lc (proc_lc terms) = proc_lc terms :=
  ⟨proc_lc_perm h, proc_lc_idem terms⟩

/-- Witness for C4 at a concrete permutation of a two-term combination. -/
theorem proc_lc_order_insensitive_idem_witness :
    proc_lc [((Index.input 0 : Variable), (2 : Int)), (Index.aux 1, 3)] =
        proc_lc [(Index.aux 1, (3 : Int)), (Index.input 0, 2)]
    ∧ proc_lc (proc_lc [((Index.input 0 : Variable), (2 : Int)), (Index.aux 1, 3)]) =
        proc_lc [((Index.input 0 : Variable), (2 : Int)), (Index.aux 1, 3)] :=
  proc_lc_order_insensitive_idem _ _ (by decide)

/-- Range condition of a variable against the two assignment tables: the
spec's "indices are always in range by construction". -/
def varInRange (nInputs nAux : Nat) : Variable → Prop
  | .input i => i < nInputs
  | .aux i => i < nAux

instance (nI nA : Nat) : (v : Variable) → Decidable (varInRange nI nA v)
  | .input i => inferInstanceAs (Decidable (i < nI))
  | .aux i => inferInstanceAs (Decidable (i < nA))

theorem foldl_add_eq_sum (f : Variable × F → F) (l : List (Variable × F))
    (a : F) : l.foldl (fun acc t => acc + f t) a = a + (l.map f).sum := by
  induction l generalizing a with
  | nil => simp
  | cons t ts ih => simp [ih, add_assoc]

theorem eval_lc_eq_sum (terms : LinearCombination F)
    (inputs aux : List (F × String)) :
    eval_lc terms inputs aux =
      (terms.map (fun t => lookupVal inputs aux t.1 * t.2)).sum := by
  rw [eval_lc, foldl_add_eq_sum, zero_add]

theorem sum_insertTerm (f0 : Variable → F) (v : Variable) (c : F)
    (m : List (Variable × F)) :
    ((insertTerm v c m).map (fun t => f0 t.1 * t.2)).sum =
      (m.map (fun t => f0 t.1 * t.2)).sum + f0 v * c := by
  induction m with
  | nil => simp [insertTerm]
  | cons hd tl ih =>
    obtain ⟨w, d⟩ := hd
    unfold insertTerm
    split
    · simp only [List.map_cons, List.sum_cons]
      ring
    · have he : v = w := ordCmp_eq_iff.mp (by assumption)
      subst he
      simp only [List.map_cons, List.sum_cons, mul_add]
      ring
    · simp only [List.map_cons, List.sum_cons, ih]
      ring

theorem sum_procFoldAux (f0 : Variable → F) (terms : LinearCombination F)
    (m : List (Variable × F)) :
    ((terms.foldl (fun m t => insertTerm t.1 t.2 m) m).map
        (fun t => f0 t.1 * t.2)).sum =
      (m.map (fun t => f0 t.1 * t.2)).sum +
        (terms.map (fun t => f0 t.1 * t.2)).sum := by
  induction terms generalizing m with
  | nil => simp
  | cons t ts ih =>
    rw [List.foldl_cons, ih, sum_insertTerm]
    simp only [List.map_cons, List.sum_cons]
    ring

theorem sum_filter_nonzero (f0 : Variable → F) (m : List (Variable × F)) :
    ((m.filter (fun t => ¬ t.2 = 0)).map (fun t => f0 t.1 * t.2)).sum =
      (m.map (fun t => f0 t.1 * t.2)).sum := by
  induction m with
  | nil => rfl
  | cons t ts ih =>
    simp only [decide_not] at ih ⊢
    by_cases h : t.2 = 0 <;> simp [List.filter_cons, h, ih]

/-- C5: evaluating a raw combination and evaluating its canonical form
agree under the same assignment tables (stated, as the claim does, for
combinations whose variable indices are in range of the tables). -/
theorem eval_lc_proc_lc (terms : LinearCombination F)
    (inputs aux : List (F × String))
    (hin : ∀ t ∈ terms, varInRange inputs.length aux.length t.1) :
    eval_lc terms inputs aux = eval_lc (proc_lc terms) inputs aux := by
  rw [eval_lc_eq_sum, eval_lc_eq_sum, proc_lc, sum_filter_nonzero, procFold,
    sum_procFoldAux]
  simp

/-- Witness for C5 at a concrete combination with duplicate and cancelling
terms over concrete tables. -/
theorem eval_lc_proc_lc_witness :
    eval_lc [((Index.input 0 : Variable), (2 : Int)), (Index.aux 0, 3),
        (Index.input 0, -2)] [((5 : Int), "ONE")] [((7 : Int), "x")] =
      eval_lc (proc_lc [((Index.input 0 : Variable), (2 : Int)),
        (Index.aux 0, 3), (Index.input 0, -2)])
        [((5 : Int), "ONE")] [((7 : Int), "x")] :=
  eval_lc_proc_lc _ _ _ (by decide)

theorem firstUnsat_eq_some_iff (inputs aux : List (F × String))
    (cs : List (Constraint F)) (p : String) :
    firstUnsat inputs aux cs = some p ↔
      ∃ pre t post, cs = pre ++ t :: post
        ∧ (∀ u ∈ pre, ¬ constraintUnsat inputs aux u)
        ∧ constraintUnsat inputs aux t ∧ p = t.path := by
  induction cs with
  | nil =>
    simp only [firstUnsat]
    constructor
    · intro h; exact Option.noConfusion h
    · rintro ⟨pre, t, post, h, -, -, -⟩
      cases pre <;> simp at h
  | cons c cs ih =>
    simp only [firstUnsat]
    by_cases hc : constraintUnsat inputs aux c
    · rw [if_pos hc]
      constructor
      · intro h
        injection h with h
        exact ⟨[], c, cs, rfl, by simp, hc, h.symm⟩
      · rintro ⟨pre, t, post, heq, hpre, ht, hp⟩
        cases pre with
        | nil =>
          simp only [List.nil_append, List.cons.injEq] at heq
          rw [hp, heq.1]
        | cons q pre' =>
          simp only [List.cons_append, List.cons.injEq] at heq
          refine absurd hc ?_
          rw [heq.1]
          exact hpre q (List.mem_cons_self _ _)
    · rw [if_neg hc, ih]
      constructor
      · rintro ⟨pre, t, post, heq, hpre, ht, hp⟩
        refine ⟨c :: pre, t, post, by rw [heq, List.cons_append], ?_, ht, hp⟩
        intro u hu
        rcases List.mem_cons.mp hu with hu' | hu'
        · rw [hu']; exact hc
        · exact hpre u hu'
      · rintro ⟨pre, t, post, heq, hpre, ht, hp⟩
        cases pre with
        | nil =>
          simp only [List.nil_append, List.cons.injEq] at heq
          exact absurd (heq.1 ▸ ht) hc
        | cons q pre' =>
          simp only [List.cons_append, List.cons.injEq] at heq
          exact ⟨pre', t, post, heq.2, fun u hu =>
            hpre u (List.mem_cons_of_mem _ hu), ht, hp⟩

theorem firstUnsat_eq_none_iff (inputs aux : List (F × String))
    (cs : List (Constraint F)) :
    firstUnsat inputs aux cs = none ↔
      ∀ t ∈ cs, ¬ constraintUnsat inputs aux t := by
  induction cs with
  | nil => simp [firstUnsat]
  | cons c cs ih =>
    simp only [firstUnsat]
    by_cases hc : constraintUnsat inputs aux c
    · simp [if_pos hc, hc]
    · simp [if_neg hc, ih, hc]

/-- C6: which_is_unsatisfied returns the path of the first constraint in
insertion order whose A, B, C evaluations violate eval(A)*eval(B) =
eval(C), none when every constraint holds; and is_satisfied is true
exactly when which_is_unsatisfied returns none, i.e. when every recorded
constraint satisfies the product equation (stated, as the claim does, for
reachable states referencing only in-range indices). -/
theorem which_is_unsatisfied_first (s : TestConstraintSystem F)
    (hr : Reachable s)
    (hin : ∀ t ∈ s.constraints, ∀ z ∈ t.a ++ t.b ++ t.c,
      varInRange s.inputs.length s.aux.length z.1) :
    (∀ p, which_is_unsatisfied s = some p ↔
      ∃ pre t post, s.constraints = pre ++ t :: post
        ∧ (∀ u ∈ pre, ¬ constraintUnsat s.inputs s.aux u)
        ∧ constraintUnsat s.inputs s.aux t ∧ p = t.path)
    ∧ (is_satisfied s = true ↔ which_is_unsatisfied s = none)
    ∧ (is_satisfied s = true ↔
        ∀ t ∈ s.constraints, ¬ constraintUnsat s.inputs s.aux t) := by
  refine ⟨fun p => firstUnsat_eq_some_iff _ _ _ _, ?_, ?_⟩
  · rw [is_satisfied, Option.isNone_iff_eq_none]
  · rw [is_satisfied, Option.isNone_iff_eq_none, which_is_unsatisfied,
      firstUnsat_eq_none_iff]

/-- State reached by allocating one aux variable named x with value 10. -/
def wStateA : TestConstraintSystem Int :=
  { named_objects := [("x", .var (.aux 0)), ("ONE", .var (.input 0))]
    current_namespace := []
    constraints := []
    inputs := [(1, "ONE")]
    aux := [(10, "x")] }

/-- State reached from `wStateA` by enforcing x * ONE = 3 ONE under the
name mult (an unsatisfied constraint, since x holds 10). -/
def wStateB : TestConstraintSystem Int :=
  { named_objects := [("mult", .constraint 0), ("x", .var (.aux 0)),
      ("ONE", .var (.input 0))]
    current_namespace := []
    constraints := [⟨[(.aux 0, 1)], [(.input 0, 1)], [(.input 0, 3)], "mult"⟩]
    inputs := [(1, "ONE")]
    aux := [(10, "x")] }

theorem wStateB_reachable : Reachable wStateB :=
  ReachableP.enforce
    (ReachableP.alloc (ReachableP.base) (by decide :
      alloc new "x" (Except.ok 10) = some (wStateA, .ok (.aux 0))))
    (by decide : enforce wStateA "mult" [(.aux 0, 1)] [(.input 0, 1)]
      [(.input 0, 3)] = some wStateB)

/-- Witness for C6 at a concrete reachable state holding one violated
constraint. -/
theorem which_is_unsatisfied_first_witness :
    (∀ p, which_is_unsatisfied wStateB = some p ↔
      ∃ pre t post, wStateB.constraints = pre ++ t :: post
        ∧ (∀ u ∈ pre, ¬ constraintUnsat wStateB.inputs wStateB.aux u)
        ∧ constraintUnsat wStateB.inputs wStateB.aux t ∧ p = t.path)
    ∧ (is_satisfied wStateB = true ↔ which_is_unsatisfied wStateB = none)
    ∧ (is_satisfied wStateB = true ↔
        ∀ t ∈ wStateB.constraints,
          ¬ constraintUnsat wStateB.inputs wStateB.aux t) :=
  which_is_unsatisfied_first wStateB wStateB_reachable (by decide)

theorem zip_all_eq_iff (l₁ : List (F × String)) (l₂ : List F)
    (h : l₁.length = l₂.length) :
    (((l₁.zip l₂).all (fun p => decide (p.1.1 = p.2))) = true) ↔
      l₁.map Prod.fst = l₂ := by
  induction l₁ generalizing l₂ with
  | nil =>
    cases l₂ with
    | nil => simp
    | cons y ys => simp at h
  | cons x xs ih =>
    cases l₂ with
    | nil => simp at h
    | cons y ys =>
      simp only [List.zip_cons_cons, List.all_cons, List.map_cons,
        Bool.and_eq_true, decide_eq_true_eq, List.cons.injEq]
      rw [ih ys (by simpa using h)]

/-- Counterexample to C7 as stated: at the fresh system (whose Inputs
table has only the ONE entry) and a one-element expected vector the
lengths mismatch, yet verify does not return false -- it hard-faults. -/
theorem verify_mismatch_counterexample :
    ¬ [(0 : Int)].length + 1 = (new : TestConstraintSystem Int).inputs.length
    ∧ ¬ verify (new : TestConstraintSystem Int) [(0 : Int)] = some false := by
  exact ⟨by decide, by decide⟩

/-- C7 (amended): verify hard-faults exactly when expected.len() + 1
differs from inputs.len(); otherwise it returns true exactly on an exact
positional match of Inputs[1..] against expected (Inputs[0], the ONE
constant, excluded), and false exactly on a mismatch. -/
theorem verify_spec (s : TestConstraintSystem F) (expected : List F)
    (hr : Reachable s) :
    (verify s expected = none ↔ ¬ expected.length + 1 = s.inputs.length)
    ∧ (expected.length + 1 = s.inputs.length →
        ((verify s expected = some true ↔
          (s.inputs.drop 1).map Prod.fst = expected)
        ∧ (verify s expected = some false ↔
          ¬ (s.inputs.drop 1).map Prod.fst = expected))) := by
  constructor
  · rw [verify]
    by_cases h : expected.length + 1 = s.inputs.length <;> simp [h]
  · intro h
    have hlen : (s.inputs.drop 1).length = expected.length := by
      rw [List.length_drop]
      omega
    rw [verify, if_pos h]
    constructor
    · rw [Option.some.injEq]
      exact zip_all_eq_iff _ _ hlen
    · rw [Option.some.injEq]
      constructor
      · intro hb hmap
        have hall := (zip_all_eq_iff _ _ hlen).mpr hmap
        rw [hb] at hall
        exact Bool.noConfusion hall
      · intro h'
        cases hb : ((s.inputs.drop 1).zip expected).all
            (fun p => decide (p.1.1 = p.2)) with
        | false => rfl
        | true => exact absurd ((zip_all_eq_iff _ _ hlen).mp hb) h'

/-- State reached by allocating one public input named pub with value 4. -/
def wStateC : TestConstraintSystem Int :=
  { named_objects := [("pub", .var (.input 1)), ("ONE", .var (.input 0))]
    current_namespace := []
    constraints := []
    inputs := [(1, "ONE"), (4, "pub")]
    aux := [] }

theorem wStateC_reachable : Reachable wStateC :=
  ReachableP.alloc_input (ReachableP.base) (by decide :
    alloc_input new "pub" (Except.ok 4) = some (wStateC, .ok (.input 1)))

/-- Witness for C7's amended statement at a concrete reachable state with
one real public input. -/
theorem verify_spec_witness :
    (verify wStateC [(4 : Int)] = none ↔
      ¬ [(4 : Int)].length + 1 = wStateC.inputs.length)
    ∧ ([(4 : Int)].length + 1 = wStateC.inputs.length →
        ((verify wStateC [(4 : Int)] = some true ↔
          (wStateC.inputs.drop 1).map Prod.fst = [(4 : Int)])
        ∧ (verify wStateC [(4 : Int)] = some false ↔
          ¬ (wStateC.inputs.drop 1).map Prod.fst = [(4 : Int)]))) :=
  verify_spec wStateC [(4 : Int)] wStateC_reachable

/-- Spec-side tag byte, following the spec's words for the fingerprint
layout: the character I for an Input variable, A for an Aux variable. -/
def specTagByte : Variable → Nat
  | .input _ => ('I').toNat
  | .aux _ => ('A').toNat

/-- Spec-side variable index of a tagged variable. -/
def specVarIndex : Variable → Nat
  | .input i => i
  | .aux i => i

/-- Spec-side byte layout of one canonical term, following the spec's
words: one tag byte, an 8-byte big-endian variable index, and the
coefficient's fixed-width canonical byte representation with its byte
order reversed. -/
def specTermBytes (reprBytes : F → List Nat) (t : Variable × F) : List Nat :=
  [specTagByte t.1] ++ be64 (specVarIndex t.1) ++ (reprBytes t.2).reverse

/-- Spec-side byte layout of one combination, following the spec's words:
canonicalize, feed an 8-byte big-endian count of surviving terms, then
each term in canonical order. -/
def specCombinationBytes (reprBytes : F → List Nat)
    (terms : LinearCombination F) : List Nat :=
  be64 (proc_lc terms).length ++
    (proc_lc terms).flatMap (specTermBytes reprBytes)

/-- Spec-side fingerprint byte stream, following the spec's words: a
header of three 8-byte big-endian integers (input count, aux count,
constraint count), then for each constraint in insertion order the A,
then B, then C combination layouts. -/
def specFingerprintBytes (reprBytes : F → List Nat)
    (s : TestConstraintSystem F) : List Nat :=
  be64 s.inputs.length ++ be64 s.aux.length ++ be64 s.constraints.length ++
    (s.constraints.flatMap (fun t => [t.a, t.b, t.c])).flatMap
      (specCombinationBytes reprBytes)

theorem termBytes_eq_spec (reprBytes : F → List Nat) (t : Variable × F) :
    termBytes reprBytes t = specTermBytes reprBytes t := by
  obtain ⟨v, c⟩ := t
  cases v <;> rfl

theorem hash_lc_bytes_eq_spec (reprBytes : F → List Nat)
    (terms : LinearCombination F) :
    hash_lc_bytes reprBytes terms = specCombinationBytes reprBytes terms := by
  have hf : termBytes (F := F) reprBytes = specTermBytes reprBytes :=
    funext (termBytes_eq_spec reprBytes)
  rw [hash_lc_bytes, specCombinationBytes, List.flatMap_def, hf]

theorem triple_flatten_eq (f : LinearCombination F → List Nat)
    (cs : List (Constraint F)) :
    (cs.map (fun t => f t.a ++ f t.b ++ f t.c)).flatten =
      (cs.flatMap (fun t => [t.a, t.b, t.c])).flatMap f := by
  induction cs with
  | nil => rfl
  | cons c cs ih =>
    rw [List.map_cons, List.flatten_cons, List.flatMap_cons,
      List.flatMap_append, ih]
    simp [List.append_assoc]

theorem hashInput_eq_spec (reprBytes : F → List Nat)
    (s : TestConstraintSystem F) :
    hashInput reprBytes s = specFingerprintBytes reprBytes s := by
  have hf : (fun t : Constraint F =>
      hash_lc_bytes reprBytes t.a ++ hash_lc_bytes reprBytes t.b ++
        hash_lc_bytes reprBytes t.c) = (fun t : Constraint F =>
      specCombinationBytes reprBytes t.a ++ specCombinationBytes reprBytes t.b ++
        specCombinationBytes reprBytes t.c) := by
    funext t
    rw [hash_lc_bytes_eq_spec, hash_lc_bytes_eq_spec, hash_lc_bytes_eq_spec]
  rw [hashInput, specFingerprintBytes, hf, triple_flatten_eq]

theorem hexString_length (l : List Nat) : (hexString l).length = 2 * l.length := by
  rw [hexString, show (String.mk ((l.map byteToHex).flatten)).length =
    ((l.map byteToHex).flatten).length from rfl, List.length_flatten]
  induction l with
  | nil => rfl
  | cons b bs ih =>
    simp only [List.map_cons, List.sum_cons, ih, byteToHex, List.length_cons,
      List.length_singleton, List.length_nil]
    omega

/-- C1: the hash() digest is computed exactly over the spec's byte
layout -- the three-count big-endian header, then per constraint, for A
then B then C, the canonical-term count and the tag/index/reversed
coefficient bytes of each surviving term -- and the finalized 32-byte
digest renders as 64 hex characters. -/
theorem hash_spec_layout (blake : List Nat → List Nat)
    (reprBytes : F → List Nat) (s : TestConstraintSystem F)
    (hr : Reachable s) (hblake : ∀ l, (blake l).length = 32) :
    hashInput reprBytes s = specFingerprintBytes reprBytes s
    ∧ hash blake reprBytes s =
        hexString (blake (specFingerprintBytes reprBytes s))
    ∧ (hash blake reprBytes s).length = 64 := by
  refine ⟨hashInput_eq_spec _ _, ?_, ?_⟩
  · rw [hash, hashInput_eq_spec]
  · rw [hash, hexString_length, hblake]

/-- Witness for C1 at the fresh system with concrete digest and
representation functions. -/
theorem hash_spec_layout_witness :
    hashInput (fun _ : Int => List.replicate 32 0)
        (new : TestConstraintSystem Int) =
      specFingerprintBytes (fun _ : Int => List.replicate 32 0) new
    ∧ hash (fun _ => List.replicate 32 1) (fun _ : Int => List.replicate 32 0)
        (new : TestConstraintSystem Int) =
      hexString ((fun _ => List.replicate 32 1)
        (specFingerprintBytes (fun _ : Int => List.replicate 32 0) new))
    ∧ (hash (fun _ => List.replicate 32 1)
        (fun _ : Int => List.replicate 32 0)
        (new : TestConstraintSystem Int)).length = 64 :=
  hash_spec_layout (fun _ => List.replicate 32 1)
    (fun _ : Int => List.replicate 32 0) new ReachableP.base
    (fun l => by simp)

theorem hash_lc_bytes_congr {reprBytes : F → List Nat}
    {t₁ t₂ : LinearCombination F} (h : List.Perm t₁ t₂) :
    hash_lc_bytes reprBytes t₁ = hash_lc_bytes reprBytes t₂ := by
  rw [hash_lc_bytes, hash_lc_bytes, proc_lc_perm h]

theorem hash_constraints_congr (reprBytes : F → List Nat)
    {cs₁ cs₂ : List (Constraint F)}
    (hcon : List.Forall₂ (fun t₁ t₂ : Constraint F =>
        List.Perm t₁.a t₂.a ∧ List.Perm t₁.b t₂.b ∧ List.Perm t₁.c t₂.c)
      cs₁ cs₂) :
    (cs₁.map (fun t => hash_lc_bytes reprBytes t.a ++
        hash_lc_bytes reprBytes t.b ++ hash_lc_bytes reprBytes t.c)).flatten =
      (cs₂.map (fun t => hash_lc_bytes reprBytes t.a ++
        hash_lc_bytes reprBytes t.b ++ hash_lc_bytes reprBytes t.c)).flatten := by
  induction hcon with
  | nil => rfl
  | cons h hs ih =>
    simp only [List.map_cons, List.flatten_cons]
    rw [hash_lc_bytes_congr h.1, hash_lc_bytes_congr h.2.1,
      hash_lc_bytes_congr h.2.2, ih]

/-- C2: the hash() fingerprint depends only on the structural content --
the three counts and, per constraint in order, the variables (kind and
index) and coefficients of A, B, C -- and not on any path string in the
registry, the name columns, or the constraints. -/
theorem hash_ignores_names (blake : List Nat → List Nat)
    (reprBytes : F → List Nat) (s₁ s₂ : TestConstraintSystem F)
    (hr₁ : Reachable s₁) (hr₂ : Reachable s₂)
    (hinp : s₁.inputs.length = s₂.inputs.length)
    (haux : s₁.aux.length = s₂.aux.length)
    (hcon : List.Forall₂ (fun t₁ t₂ : Constraint F =>
        List.Perm t₁.a t₂.a ∧ List.Perm t₁.b t₂.b ∧ List.Perm t₁.c t₂.c)
      s₁.constraints s₂.constraints) :
    hash blake reprBytes s₁ = hash blake reprBytes s₂ := by
  rw [hash, hash]
  congr 1
  rw [hashInput, hashInput, hinp, haux, hcon.length_eq,
    hash_constraints_congr reprBytes hcon]

/-- State reached by allocating one aux variable named y with value 10
(structurally identical to `wStateA`, different path strings). -/
def wStateA' : TestConstraintSystem Int :=
  { named_objects := [("y", .var (.aux 0)), ("ONE", .var (.input 0))]
    current_namespace := []
    constraints := []
    inputs := [(1, "ONE")]
    aux := [(10, "y")] }

theorem wStateA_reachable : Reachable wStateA :=
  ReachableP.alloc (ReachableP.base) (by decide :
    alloc new "x" (Except.ok 10) = some (wStateA, .ok (.aux 0)))

theorem wStateA'_reachable : Reachable wStateA' :=
  ReachableP.alloc (ReachableP.base) (by decide :
    alloc new "y" (Except.ok 10) = some (wStateA', .ok (.aux 0)))

/-- Witness for C2 at two concrete reachable states that differ only in
their path strings. -/
theorem hash_ignores_names_witness :
    hash (fun _ => List.replicate 32 1) (fun x : Int => List.replicate 32 x.natAbs)
        wStateA =
      hash (fun _ => List.replicate 32 1) (fun x : Int => List.replicate 32 x.natAbs)
        wStateA' :=
  hash_ignores_names _ _ wStateA wStateA' wStateA_reachable wStateA'_reachable
    (by decide) (by decide) (List.Forall₂.nil)

/-- Strengthened ONE-slot invariant: Inputs[0] holds (one, ONE), the
Inputs table is nonempty, and the registry maps no path to Input index 0
except ONE itself. -/
def OneInv (s : TestConstraintSystem F) : Prop :=
  s.inputs.getD 0 (0, "") = (1, "ONE")
  ∧ 1 ≤ s.inputs.length
  ∧ ∀ p, s.named_objects.lookup p = some (.var (.input 0)) → p = "ONE"

theorem lookup_cons_inv {m : List (String × NamedObject)} {q : String}
    {o o' : NamedObject} {p : String}
    (h : List.lookup p ((q, o) :: m) = some o') :
    (p = q ∧ o = o') ∨ List.lookup p m = some o' := by
  simp only [List.lookup] at h
  split at h
  · exact Or.inl ⟨beq_iff_eq.mp (by assumption), Option.some.inj h⟩
  · exact Or.inr h

theorem oneInv_registry_cons {m : List (String × NamedObject)} {q : String}
    {o : NamedObject} (ho : ¬ o = .var (.input 0))
    (hm : ∀ p, List.lookup p m = some (.var (.input 0)) → p = "ONE") :
    ∀ p, List.lookup p ((q, o) :: m) = some (.var (.input 0)) → p = "ONE" := by
  intro p h
  rcases lookup_cons_inv h with ⟨h₁, h₂⟩ | h'
  · exact absurd h₂ ho
  · exact hm p h'

theorem setNamedObj_some {m m' : List (String × NamedObject)} {path : String}
    {obj : NamedObject} (h : setNamedObj m path obj = some m') :
    m' = (path, obj) :: m := by
  rw [setNamedObj] at h
  split at h
  · exact Option.noConfusion h
  · exact (Option.some.inj h).symm

theorem oneInv_new : OneInv (new : TestConstraintSystem F) := by
  refine ⟨rfl, by simp [new], ?_⟩
  intro p h
  rcases lookup_cons_inv h with ⟨h₁, -⟩ | h'
  · exact h₁
  · exact Option.noConfusion h'

theorem oneInv_alloc {s s' : TestConstraintSystem F} {nm : String}
    {fres : Except SynthesisError F} {r : Except SynthesisError Variable}
    (h : alloc s nm fres = some (s', r)) (ih : OneInv s) : OneInv s' := by
  simp only [alloc] at h
  split at h
  · exact Option.noConfusion h
  · split at h
    · injection h with h
      injection h with h₁ h₂
      exact h₁ ▸ ih
    · split at h
      · exact Option.noConfusion h
      · injection h with h
        injection h with h₁ h₂
        subst h₁
        have hm := setNamedObj_some (by assumption)
        subst hm
        exact ⟨ih.1, ih.2.1,
          oneInv_registry_cons (by simp) ih.2.2⟩

theorem oneInv_alloc_input {s s' : TestConstraintSystem F} {nm : String}
    {fres : Except SynthesisError F} {r : Except SynthesisError Variable}
    (h : alloc_input s nm fres = some (s', r)) (ih : OneInv s) : OneInv s' := by
  simp only [alloc_input] at h
  split at h
  · exact Option.noConfusion h
  · split at h
    · injection h with h
      injection h with h₁ h₂
      exact h₁ ▸ ih
    · split at h
      · exact Option.noConfusion h
      · injection h with h
        injection h with h₁ h₂
        subst h₁
        have hm := setNamedObj_some (by assumption)
        subst hm
        have hlen := ih.2.1
        refine ⟨?_, ?_, ?_⟩
        · show (s.inputs ++ _).getD 0 (0, "") = (1, "ONE")
          rw [List.getD_eq_getElem?_getD,
            List.getElem?_append_left (by omega),
            ← List.getD_eq_getElem?_getD]
          exact ih.1
        · show 1 ≤ (s.inputs ++ _).length
          rw [List.length_append]
          omega
        · refine oneInv_registry_cons ?_ ih.2.2
          intro hc
          injection hc with hc
          injection hc with hc
          omega

theorem oneInv_enforce {s s' : TestConstraintSystem F} {nm : String}
    {a b c : LinearCombination F}
    (h : enforce s nm a b c = some s') (ih : OneInv s) : OneInv s' := by
  simp only [enforce] at h
  split at h
  · exact Option.noConfusion h
  · split at h
    · exact Option.noConfusion h
    · injection h with h
      subst h
      have hm := setNamedObj_some (by assumption)
      subst hm
      exact ⟨ih.1, ih.2.1, oneInv_registry_cons (by simp) ih.2.2⟩

theorem oneInv_push {s s' : TestConstraintSystem F} {nm : String}
    (h : push_namespace s nm = some s') (ih : OneInv s) : OneInv s' := by
  simp only [push_namespace] at h
  split at h
  · exact Option.noConfusion h
  · split at h
    · exact Option.noConfusion h
    · injection h with h
      subst h
      have hm := setNamedObj_some (by assumption)
      subst hm
      exact ⟨ih.1, ih.2.1, oneInv_registry_cons (by simp) ih.2.2⟩

theorem oneInv_pop {s s' : TestConstraintSystem F}
    (h : pop_namespace s = some s') (ih : OneInv s) : OneInv s' := by
  simp only [pop_namespace] at h
  split at h
  · exact Option.noConfusion h
  · injection h with h
    subst h
    exact ih

theorem getD_set_ne {l : List (F × String)} {i j : Nat} {a d : F × String}
    (h : ¬ i = j) : (l.set i a).getD j d = l.getD j d := by
  rw [List.getD_eq_getElem?_getD, List.getElem?_set_ne h,
    ← List.getD_eq_getElem?_getD]

theorem oneInv_set {s s' : TestConstraintSystem F} {path : String} {v : F}
    (h : set s path v = some s') (hne : ¬ path = "ONE") (ih : OneInv s) :
    OneInv s' := by
  simp only [set] at h
  split at h
  · -- input slot
    rename_i x0 i heq
    split at h
    · injection h with h
      subst h
      have hi : ¬ i = 0 := by
        intro h0
        subst h0
        exact hne (ih.2.2 path heq)
      refine ⟨?_, ?_, ih.2.2⟩
      · show (s.inputs.set i _).getD 0 (0, "") = (1, "ONE")
        rw [getD_set_ne hi]
        exact ih.1
      · show 1 ≤ (s.inputs.set i _).length
        rw [List.length_set]
        exact ih.2.1
    · exact Option.noConfusion h
  · -- aux slot
    split at h
    · injection h with h
      subst h
      exact ih
    · exact Option.noConfusion h
  · exact Option.noConfusion h
  · exact Option.noConfusion h

theorem oneInv_of_reachableP {P : String → Prop}
    (hP : ∀ p, P p → ¬ p = "ONE") {s : TestConstraintSystem F}
    (h : ReachableP P s) : OneInv s := by
  induction h with
  | base => exact oneInv_new
  | alloc h₁ h₂ ih => exact oneInv_alloc h₂ ih
  | alloc_input h₁ h₂ ih => exact oneInv_alloc_input h₂ ih
  | enforce h₁ h₂ ih => exact oneInv_enforce h₂ ih
  | push h₁ h₂ ih => exact oneInv_push h₂ ih
  | pop h₁ h₂ ih => exact oneInv_pop h₂ ih
  | set h₁ hp h₂ ih => exact oneInv_set h₂ (hP _ hp) ih

/-- Counterexample to C8 as stated: set with path ONE is a
witness-setting operation that reassigns Inputs[0] away from field-one
(here to zero). -/
theorem set_one_counterexample :
    set (new : TestConstraintSystem Int) "ONE" 0 =
      some { named_objects := [("ONE", .var (.input 0))]
             current_namespace := []
             constraints := []
             inputs := [((0 : Int), "ONE")]
             aux := [] }
    ∧ ¬ ((0 : Int), "ONE") = ((1 : Int), "ONE") := by
  exact ⟨by decide, by decide⟩

/-- C8 (amended): in new() the entry Inputs[0] is (one, ONE), and it is
preserved by every operation -- alloc, alloc_input, enforce, namespace
push/pop, and set at any path other than ONE; only set at the reserved
path ONE itself can reassign it. -/
theorem one_slot_invariant (s : TestConstraintSystem F)
    (h : ReachableP (fun p => ¬ p = "ONE") s) :
    s.inputs.getD 0 (0, "") = (1, "ONE") :=
  (oneInv_of_reachableP (fun _ hp => hp) h).1

/-- Witness for C8's amended statement at a concrete state reached by one
allocation. -/
theorem one_slot_invariant_witness :
    wStateA.inputs.getD 0 (0, "") = ((1 : Int), "ONE") :=
  one_slot_invariant wStateA
    (ReachableP.alloc (ReachableP.base) (by decide :
      alloc new "x" (Except.ok 10) = some (wStateA, .ok (.aux 0))))

/-- Spec-side path join, following the spec's words: the '/'-join of the
namespace-stack segments followed by the local name. -/
def specSlashJoin : List String → String
  | [] => ""
  | [x] => x
  | x :: y :: rest => x ++ "/" ++ specSlashJoin (y :: rest)

theorem specSlashJoin_cons (z : String) (l : List String) (h : ¬ l = []) :
    specSlashJoin (z :: l) = z ++ "/" ++ specSlashJoin l := by
  cases l with
  | nil => exact absurd rfl h
  | cons y rest => rfl

theorem pathFold_from_true (l : List String) (acc : String) :
    (l.foldl (fun (a : String × Bool) x =>
      (a.1 ++ (if a.2 then "/" else "") ++ x, true)) (acc, true)).1 =
      if l = [] then acc else acc ++ "/" ++ specSlashJoin l := by
  induction l generalizing acc with
  | nil => rfl
  | cons x rest ih =>
    rw [List.foldl_cons, ih, if_neg (List.cons_ne_nil x rest)]
    cases rest with
    | nil =>
      rw [if_pos rfl]
      rfl
    | cons y rest' =>
      rw [if_neg (List.cons_ne_nil y rest'),
        specSlashJoin_cons x (y :: rest') (List.cons_ne_nil y rest')]
      simp [String.append_assoc]

theorem computePath_eq_join (ns : List String) (nm : String)
    (h : ¬ (nm.data.any (fun a => decide (a = '/'))) = true) :
    computePath ns nm = some (specSlashJoin (ns ++ [nm])) := by
  rw [computePath, if_neg h]
  congr 1
  cases ns with
  | nil =>
    show (([nm]).foldl _ ("", false)).1 = specSlashJoin [nm]
    simp [List.foldl_cons, specSlashJoin]
  | cons z ns' =>
    rw [List.cons_append, List.foldl_cons]
    show ((ns' ++ [nm]).foldl _ ("" ++ "" ++ z, true)).1 = _
    rw [pathFold_from_true, if_neg (by simp),
      specSlashJoin_cons z (ns' ++ [nm]) (by simp)]
    simp [String.append_assoc]

/-- Chain that pushes namespaces a then b and allocates var with value 7,
exhibiting the resolved path a/b/var. -/
def allocChain : Option (TestConstraintSystem Int) := do
  let s₁ ← push_namespace (new : TestConstraintSystem Int) "a"
  let s₂ ← push_namespace s₁ "b"
  let (s₃, _) ← alloc s₂ "var" (.ok 7)
  pure s₃

/-- C9: a freshly created object's path is the '/'-join of the active
namespace segments followed by the local name (concretely, allocating var
inside nested scopes a then b registers it at a/b/var), and any second
creation through alloc, alloc_input, enforce, or push_namespace resolving
to an already-registered path is a hard fault that inserts no second
entry. -/
theorem path_join_unique (ns : List String) (s : TestConstraintSystem F)
    (nm path : String) (x : F) (a b c : LinearCombination F)
    (hpath : computePath s.current_namespace nm = some path)
    (hdup : (s.named_objects.lookup path).isSome = true) :
    (¬ (nm.data.any (fun ch => decide (ch = '/'))) = true →
      computePath ns nm = some (specSlashJoin (ns ++ [nm])))
    ∧ allocChain.map (fun t => (t.named_objects.lookup "a/b/var", t.aux)) =
        some (some (.var (.aux 0)), [((7 : Int), "a/b/var")])
    ∧ alloc s nm (.ok x) = none
    ∧ alloc_input s nm (.ok x) = none
    ∧ enforce s nm a b c = none
    ∧ push_namespace s nm = none := by
  refine ⟨fun hs => computePath_eq_join ns nm hs, by decide, ?_, ?_, ?_, ?_⟩
  · simp only [alloc, hpath, setNamedObj, if_pos hdup]
  · simp only [alloc_input, hpath, setNamedObj, if_pos hdup]
  · simp only [enforce, hpath, setNamedObj, if_pos hdup]
  · simp only [push_namespace, hpath, setNamedObj, if_pos hdup]

/-- Witness for C9: the join formula at scopes a, b with local name x,
the concrete a/b/var registration, and the four duplicate-path hard
faults at the already-registered path x of `wStateA`. -/
theorem path_join_unique_witness :
    (¬ ("x".data.any (fun ch => decide (ch = '/'))) = true →
      computePath ["a", "b"] "x" = some (specSlashJoin (["a", "b"] ++ ["x"])))
    ∧ allocChain.map (fun t => (t.named_objects.lookup "a/b/var", t.aux)) =
        some (some (.var (.aux 0)), [((7 : Int), "a/b/var")])
    ∧ alloc wStateA "x" (.ok (5 : Int)) = none
    ∧ alloc_input wStateA "x" (.ok (5 : Int)) = none
    ∧ enforce wStateA "x" [] [] [] = none
    ∧ push_namespace wStateA "x" = none :=
  path_join_unique ["a", "b"] wStateA "x" "x" 5 [] [] []
    (by decide) (by decide)

/-- C10: when the value closure fails, alloc and alloc_input return that
same error and leave the entire state -- inputs, aux, constraints,
registry, and namespace stack -- unchanged. -/
theorem alloc_error_atomic (s : TestConstraintSystem F) (nm : String)
    (e : SynthesisError)
    (hslash : ¬ (nm.data.any (fun ch => decide (ch = '/'))) = true) :
    alloc s nm (.error e) = some (s, .error e)
    ∧ alloc_input s nm (.error e) = some (s, .error e) := by
  constructor
  · simp only [alloc, computePath, if_neg hslash]
  · simp only [alloc_input, computePath, if_neg hslash]

/-- Witness for C10 at the fresh system with a concrete failing closure. -/
theorem alloc_error_atomic_witness :
    alloc (new : TestConstraintSystem Int) "w"
        (.error SynthesisError.assignmentMissing) =
      some (new, .error SynthesisError.assignmentMissing)
    ∧ alloc_input (new : TestConstraintSystem Int) "w"
        (.error SynthesisError.assignmentMissing) =
      some (new, .error SynthesisError.assignmentMissing) :=
  alloc_error_atomic new "w" SynthesisError.assignmentMissing (by decide)

end Bellman
